import Mathlib

/-!
Verification of the statistical core of `kalepy` (`kalepy/corner.py`,
`kalepy/plot.py`): level solving (`_dfm_levels`), sigma/quantile conversion
(`_default_quantiles`), 1D interval construction (`contour1d`), grid padding
(`_pad_hist`), edge/histogram matching (`_match_edges_to_hist`,
`_draw_hist1d`), and option-dict parsing (`_none_dict`, `Corner.hist`).

Histogram/density values, bin edges and quantiles are embedded as rational
numbers (`ℚ`); the analytic sigma↔quantile conversions, which use `exp`,
`log`, `sqrt` and the normal CDF, are embedded over the reals.
-/

namespace Kalepy

/-- Cumulative sums, embedding `np.cumsum`: entry `i` is the sum of the
first `i + 1` elements. -/
def cumsum (l : List ℚ) : List ℚ :=
  (List.range l.length).map (fun i => (l.take (i + 1)).sum)

/-- Descending value sort, embedding `hflat = hflat[np.argsort(hflat)[::-1]]`
(the sorted value list is unique, so any sort embeds it). -/
def sortDesc (l : List ℚ) : List ℚ :=
  l.insertionSort (· ≥ ·)

/-- Ascending value sort, embedding `arr.sort()`. -/
def sortAsc (l : List ℚ) : List ℚ :=
  l.insertionSort (· ≤ ·)

/-- Embeds the elementwise test `sm <= v0` performed after `sm /= sm[-1]`.
When the grand total is zero the float code computes `0.0 / 0.0 = NaN`
(all grid entries are then zero, for the nonnegative grids considered here),
and `NaN <= v0` is `False`; the `total = 0` branch mirrors that. -/
def normLe (c total q : ℚ) : Bool :=
  if total = 0 then false else decide (c / total ≤ q)

/-- Embeds one iteration of the level loop of `_dfm_levels`:
`hflat[sm <= v0][-1]`, falling back to `hflat[0]` when the masked selection
is empty (the bare `except:` catching the `IndexError`).  `hsort` is the
descending-sorted flattened grid, `cum` its (unnormalized) cumulative sums;
meaningful for nonempty grids (the code raises on an empty grid before
reaching this loop). -/
def levelFor (hsort cum : List ℚ) (q : ℚ) : ℚ :=
  match (((hsort.zip cum).filter (fun p => normLe p.2 (cum.getLastD 0) q)).map Prod.fst).getLast? with
  | some v => v
  | none => hsort.headI

/-- The per-quantile raw levels of `_dfm_levels` (the `pdf_levels` array
right after the `for i, v0 in enumerate(cdf_levels)` loop, before sorting). -/
def dfmRawLevels (hist qs : List ℚ) : List ℚ :=
  let hsort := sortDesc hist
  qs.map (levelFor hsort (cumsum hsort))

/-- Embeds `bad = np.pad(np.diff(pdf_levels) == 0, [1, 0])`: entry `0` is
`False`, entry `i + 1` is whether `l[i+1] - l[i] == 0`. -/
def badMask (l : List ℚ) : List Bool :=
  false :: (l.tail.zip l).map (fun p => decide (p.1 - p.2 = 0))

/-- Embeds boolean-mask deletion `np.delete(arr, np.where(bad)[0])`
(equivalently `arr[~bad]`): keep the entries whose mask bit is `false`. -/
def maskDelete {α : Type} (l : List α) (bad : List Bool) : List α :=
  ((l.zip bad).filter (fun p => !p.2)).map Prod.fst

/-- Embeds `kalepy/corner.py::_dfm_levels` (lines 614-645) given the already
flattened histogram `hist` and explicit `cdf_levels = qs`: compute the
per-quantile levels, sort ascending, delete levels equal to their ascending
neighbour together with the same-position quantiles, and re-sort.
Returns `(pdf_levels, cdf_levels)`. -/
def corner_dfm_levels (hist qs : List ℚ) : List ℚ × List ℚ :=
  let lvls := sortAsc (dfmRawLevels hist qs)
  let bad := badMask lvls
  (sortAsc (maskDelete lvls bad), maskDelete qs bad)

/-- Embeds `kalepy/plot.py::_dfm_levels` (lines 1181-1208) given explicit
`quantiles = qs`: same level computation and ascending sort, but the
bad-level removal block is commented out, so the levels (with any
duplicates) and the unchanged quantiles are returned. -/
def plot_dfm_levels (hist qs : List ℚ) : List ℚ × List ℚ :=
  (sortAsc (dfmRawLevels hist qs), qs)

/-- Restates, in the spec's words, the level-selection rule of §4.1 step 3 /
the C1 sentence: sort the flattened grid descending, normalize the
cumulative sums by the grand total, take the subset of indices whose
normalized cumulative value does not exceed `q`, and return the density
value at the last such index; when the subset is empty return the single
largest density value.  To be compared against the code-derived
`levelFor`. -/
def specLevel (hist : List ℚ) (q : ℚ) : ℚ :=
  match ((List.range (sortDesc hist).length).filter
      (fun i => decide (((sortDesc hist).take (i + 1)).sum / hist.sum ≤ q))).getLast? with
  | some i => (sortDesc hist).getD i 0
  | none => (sortDesc hist).headI

/-- Embeds `np.interp(x, xp, fp)` on the pair list `zip xp fp` for
increasing `xp`: clamp to the first value for `x` below the first node and
to the last value beyond the last node, otherwise interpolate linearly on
the segment containing `x`. -/
def interpP (x : ℚ) : List (ℚ × ℚ) → ℚ
  | [] => 0
  | [(_, f)] => f
  | (x0, f0) :: (x1, f1) :: rest =>
    if x ≤ x0 then f0
    else if x ≤ x1 then f0 + (x - x0) * (f1 - f0) / (x1 - x0)
    else interpP x ((x1, f1) :: rest)

/-- Unweighted empirical CDF of `contour1d` (plot.py lines 828-830) as
`(cdf, value)` pairs: `data = np.sort(data)` and
`cdf = np.arange(data.size) / (data.size - 1)`. -/
def ecdfU (data : List ℚ) : List (ℚ × ℚ) :=
  let d := sortAsc data
  ((List.range d.length).map (fun i : ℕ => (i : ℚ) / ((d.length : ℚ) - 1))).zip d

/-- Weighted empirical CDF of `contour1d` (plot.py lines 831-835): sort the
samples ascending carrying the weights along by the same permutation, then
`cdf = np.cumsum(weights) / np.sum(weights)`. -/
def ecdfW (data wts : List ℚ) : List (ℚ × ℚ) :=
  let pairs := (data.zip wts).insertionSort (fun a b => a.1 ≤ b.1)
  ((cumsum (pairs.map Prod.snd)).map (· / (pairs.map Prod.snd).sum)).zip (pairs.map Prod.fst)

/-- The `(cdf, value)` pair list `contour1d` builds, by presence of
`weights`. -/
def contour1d_cdf (data : List ℚ) (weights : Option (List ℚ)) : List (ℚ × ℚ) :=
  match weights with
  | none => ecdfU data
  | some wts => ecdfW data wts

/-- Embeds the interval construction of `contour1d` (plot.py lines 837-841):
`quantiles = np.asarray(quantiles) / 2`,
`qnts = np.append(0.5 - quantiles, 0.5 + quantiles)`,
`locs = np.interp(qnts, cdf, data).reshape(2, len(quantiles)).T`.
Returns the list of `(lower, upper)` rows of `locs`. -/
def contour1d_locs (data : List ℚ) (weights : Option (List ℚ)) (quantiles : List ℚ) :
    List (ℚ × ℚ) :=
  let ps := contour1d_cdf data weights
  let half := quantiles.map (· / 2)
  let qnts := half.map (fun q => 1/2 - q) ++ half.map (fun q => 1/2 + q)
  let vals := qnts.map (fun q => interpP q ps)
  (List.range quantiles.length).map (fun i => (vals.getD i 0, vals.getD (i + quantiles.length) 0))

/-- Embeds the median line of `contour1d` (plot.py line 844):
`mm = np.interp(0.5, cdf, data)`. -/
def contour1d_median (data : List ℚ) (weights : Option (List ℚ)) : ℚ :=
  interpP (1/2) (contour1d_cdf data weights)

/-- Embeds `_pad_hist(edges, hist, pad)` (plot.py lines 1223-1232) in one
dimension: `hh = np.pad(hist, pad, mode='constant', constant_values=hist.min())`,
and each dimension's edges get `pad` extrapolated points on each side,
`ee[0] + tr * np.diff(ee[:2])` on the left (`tr = [-pad, ..., -1]`) and
`ee[-1] + tf * np.diff(ee[-2:])` on the right (`tf = [1, ..., pad]`). -/
def pad_hist (edges hist : List ℚ) (pad : ℕ) : List ℚ × List ℚ :=
  let m := hist.min?.getD 0
  let hh := List.replicate pad m ++ hist ++ List.replicate pad m
  let e0 := edges.headI
  let d0 := edges.getD 1 0 - edges.getD 0 0
  let en := edges.getLastD 0
  let dn := en - edges.getD (edges.length - 2) 0
  let left := (List.range pad).map (fun i => e0 - ((pad - i : ℕ) : ℚ) * d0)
  let right := (List.range pad).map (fun i => en + ((i + 1 : ℕ) : ℚ) * dn)
  (left ++ edges ++ right, hh)

/-- Restates, in the spec's words, the grid-padding rule of §4.5 / C5: the
added bins repeat the boundary density value (edge replication).  To be
compared against the code-derived `pad_hist`. -/
def padReplicate (hist : List ℚ) (pad : ℕ) : List ℚ :=
  List.replicate pad hist.headI ++ hist ++ List.replicate pad (hist.getLastD 0)

/-- Modelled from the spec: `kalepy.utils.midpoints` (called by
`_match_edges_to_hist`, but `utils.py` is not among the provided sources) —
the centers of adjacent bin edges. -/
def midpoints (l : List ℚ) : List ℚ :=
  (l.zip l.tail).map (fun p => (p.1 + p.2) / 2)

/-- Embeds `_match_edges_to_hist(edges, hist)` (plot.py lines 1034-1050)
with `shape = np.shape(hist)` (entries as integers, since the code compares
against `len(ee) - 1` which can be `-1`): pass edges through when the shape
equals the edge lengths, convert edges to midpoints when it equals the edge
lengths minus one, and raise `ValueError` otherwise. -/
def match_edges_to_hist (shape : List ℤ) (edges : List (List ℚ)) :
    Except String (List (List ℚ)) :=
  if shape = edges.map (fun e => (e.length : ℤ)) then Except.ok edges
  else if shape = edges.map (fun e => (e.length : ℤ) - 1) then
    Except.ok (edges.map midpoints)
  else Except.error "Shape of hist does not match edges!"

/-- Embeds the validation of `_draw_hist1d` (corner.py lines 437-438):
`if len(edges) != len(hist)+1: raise RuntimeError(...)`. -/
def draw_hist1d_check (edges hist : List ℚ) : Except String Unit :=
  if edges.length ≠ hist.length + 1 then Except.error "edges must have length hist+1!"
  else Except.ok ()

/-- A Python value as accepted by `_none_dict`: `None`, a `bool`, a `dict`
(as an insertion-ordered association list), or anything else. -/
inductive PyVal (α : Type) : Type
  | pnone : PyVal α
  | pbool : Bool → PyVal α
  | pdict : List (String × α) → PyVal α
  | other : PyVal α

/-- Embeds Python's in-place `d.setdefault(k, v)`: the state of `d` after
the call (append `(k, v)` when the key is absent, in insertion order). -/
def setdefault {α : Type} (d : List (String × α)) (k : String) (v : α) :
    List (String × α) :=
  if (d.lookup k).isSome then d else d ++ [(k, v)]

/-- The state of a dict after `for kk, vv in defaults.items(): d.setdefault(kk, vv)`. -/
def setdefaults {α : Type} (d : List (String × α)) :
    List (String × α) → List (String × α)
  | [] => d
  | (k, v) :: rest => setdefaults (setdefault d k v) rest

/-- Embeds `_none_dict(val, name, defaults)` (plot.py lines 1158-1178 and
corner.py lines 584-604).  The returned dict is the FINAL STATE of the
caller's `val` object: the code calls `val.setdefault` on the passed-in
dict and returns that same (mutated) dict. -/
def none_dict {α : Type} (val : PyVal α) (defaults : List (String × α)) :
    Except String (Option (List (String × α))) :=
  match val with
  | .pnone => Except.ok none
  | .pbool false => Except.ok none
  | .pbool true => Except.ok (some (setdefaults [] defaults))
  | .pdict d => Except.ok (some (setdefaults d defaults))
  | .other => Except.error "Unrecognized type!"

/-- The keys `Corner.hist` (plot.py lines 204-207) writes into its `dist1d`
argument, whose default value is the shared mutable dict `{}`. -/
def corner_hist_dist1d_defaults : List (String × Bool) :=
  [("density", false), ("contour", false), ("carpet", false), ("hist", true)]

/-- Embeds the `dist1d.setdefault(...)` block of `Corner.hist` (plot.py
lines 204-207): the state of the passed-in (or shared default) `dist1d`
dict after the call. -/
def corner_hist_dist1d (dist1d : List (String × Bool)) : List (String × Bool) :=
  setdefaults dist1d corner_hist_dist1d_defaults

/-- Embeds the sigma-to-quantile conversion of `_default_quantiles`
(plot.py line 1216) and `_dfm_levels` (corner.py line 612):
`quantiles = 1.0 - np.exp(-0.5 * np.square(sigmas))`, elementwise. -/
noncomputable def sigmas_to_quantiles (s : ℝ) : ℝ :=
  1 - Real.exp (-0.5 * s ^ 2)

/-- Embeds the quantile-to-sigma conversion of `_default_quantiles`
(plot.py line 1218): `sigmas = np.sqrt(-2.0 * np.log(1.0 - quantiles))`,
elementwise. -/
noncomputable def quantiles_to_sigmas (q : ℝ) : ℝ :=
  Real.sqrt (-2.0 * Real.log (1.0 - q))

/-- The standard normal CDF, embedding the external `scipy.stats.norm.cdf`
called by `_draw_hist1d` (corner.py line 492). -/
noncomputable def normCdf (x : ℝ) : ℝ :=
  1 / 2 + (Real.sqrt (2 * Real.pi))⁻¹ * ∫ t in (0:ℝ)..x, Real.exp (-t ^ 2 / 2)

/-- Central enclosed probability mass the 1D marginal path assigns to
`sigma`: `_draw_hist1d` (corner.py lines 492-494) uses the percentile pair
`(1 - Φ(σ), Φ(σ))`, which encloses `Φ(σ) - (1 - Φ(σ)) = 2Φ(σ) - 1`. -/
noncomputable def hist1d_enclosed_mass (s : ℝ) : ℝ :=
  normCdf s - (1 - normCdf s)

/-- Run-collapsing helper: drop each element equal to the previous original
element (`prev` is the element just before the current list). -/
def collapseAux (prev : ℚ) : List ℚ → List ℚ
  | [] => []
  | x :: xs => if x = prev then collapseAux x xs else x :: collapseAux x xs

/-- Collapse runs of equal adjacent elements, keeping the first of each run:
the combined effect of the `bad`-mask deletion on the sorted level array. -/
def collapseRuns : List ℚ → List ℚ
  | [] => []
  | a :: t => a :: collapseAux a t

/-! ### Helper lemmas about the list machinery -/

theorem cumsum_length (l : List ℚ) : (cumsum l).length = l.length := by
  simp [cumsum]

theorem cumsum_getD (l : List ℚ) (i : ℕ) (h : i < l.length) :
    (cumsum l).getD i 0 = (l.take (i + 1)).sum := by
  rw [List.getD_eq_getElem _ _ (by simpa [cumsum_length] using h)]
  simp [cumsum]

theorem cumsum_getLastD (l : List ℚ) (h : l ≠ []) :
    (cumsum l).getLastD 0 = l.sum := by
  have hn : 0 < l.length := List.length_pos.mpr h
  rw [List.getLastD_eq_getLast?, List.getLast?_eq_getElem?]
  rw [List.getElem?_eq_getElem (by simpa [cumsum_length] using Nat.sub_lt hn one_pos)]
  simp only [cumsum_length, Option.getD_some]
  rw [← List.getD_eq_getElem _ 0 (by simpa [cumsum_length] using Nat.sub_lt hn one_pos)]
  rw [cumsum_getD l _ (Nat.sub_lt hn one_pos)]
  have h1 : l.length - 1 + 1 = l.length := by omega
  rw [h1, List.take_length]

theorem sortAsc_perm (l : List ℚ) : (sortAsc l).Perm l :=
  List.perm_insertionSort _ l

theorem sortAsc_sorted (l : List ℚ) : (sortAsc l).Sorted (· ≤ ·) :=
  List.sorted_insertionSort _ l

theorem sortAsc_eq_self {l : List ℚ} (h : l.Sorted (· ≤ ·)) : sortAsc l = l :=
  h.insertionSort_eq

theorem sortDesc_perm (l : List ℚ) : (sortDesc l).Perm l :=
  List.perm_insertionSort _ l

theorem sortDesc_sorted (l : List ℚ) : (sortDesc l).Sorted (· ≥ ·) :=
  List.sorted_insertionSort _ l

theorem maskDelete_nil {α : Type} (bad : List Bool) : maskDelete ([] : List α) bad = [] :=
  rfl

theorem maskDelete_nil_right {α : Type} (l : List α) : maskDelete l [] = [] := by
  simp [maskDelete]

theorem maskDelete_cons {α : Type} (a : α) (l : List α) (b : Bool) (bad : List Bool) :
    maskDelete (a :: l) (b :: bad)
      = if b then maskDelete l bad else a :: maskDelete l bad := by
  cases b <;> simp [maskDelete, List.zip, List.zip_cons_cons, List.filter]

theorem maskDelete_sublist {α : Type} (l : List α) (bad : List Bool) :
    List.Sublist (maskDelete l bad) l := by
  induction l generalizing bad with
  | nil => simp [maskDelete_nil]
  | cons a t ih =>
      cases bad with
      | nil => simp [maskDelete_nil_right]
      | cons b bs =>
          rw [maskDelete_cons]
          cases b with
          | false => simpa using List.Sublist.cons₂ a (ih bs)
          | true => simpa using List.Sublist.cons a (ih bs)

theorem maskDelete_length_eq {α β : Type} (l₁ : List α) (l₂ : List β) (bad : List Bool)
    (h : l₁.length = l₂.length) :
    (maskDelete l₁ bad).length = (maskDelete l₂ bad).length := by
  induction l₁ generalizing l₂ bad with
  | nil =>
      have : l₂ = [] := List.length_eq_zero.mp h.symm
      simp [this, maskDelete_nil]
  | cons a t ih =>
      cases l₂ with
      | nil => simp at h
      | cons c u =>
          cases bad with
          | nil => simp [maskDelete_nil_right]
          | cons b bs =>
              have ht : t.length = u.length := by simpa using h
              rw [maskDelete_cons, maskDelete_cons]
              cases b <;> simp [ih u bs ht]

theorem maskDelete_all_true {α : Type} (l : List α) (m : ℕ) (h : l.length ≤ m) :
    maskDelete l (List.replicate m true) = [] := by
  induction l generalizing m with
  | nil => simp [maskDelete_nil]
  | cons a t ih =>
      cases m with
      | zero => simp at h
      | succ m' =>
          rw [List.replicate_succ, maskDelete_cons]
          simp only [if_true]
          exact ih m' (by simpa using h)

theorem maskTail_eq_collapseAux (t : List ℚ) (a : ℚ) :
    maskDelete t ((t.zip (a :: t)).map (fun p => decide (p.1 - p.2 = 0)))
      = collapseAux a t := by
  induction t generalizing a with
  | nil => rfl
  | cons x xs ih =>
      rw [show ((x :: xs).zip (a :: x :: xs)) = (x, a) :: (xs.zip (x :: xs)) from rfl]
      rw [List.map_cons, maskDelete_cons]
      by_cases hx : x = a
      · rw [if_pos (by simp [hx]), collapseAux, if_pos hx, ih x]
      · rw [if_neg (by simp [sub_eq_zero, hx]), collapseAux, if_neg hx, ih x]

theorem maskDelete_badMask (l : List ℚ) :
    maskDelete l (badMask l) = collapseRuns l := by
  cases l with
  | nil => rfl
  | cons a t =>
      rw [badMask, List.tail_cons, maskDelete_cons, if_neg (by simp),
        maskTail_eq_collapseAux t a, collapseRuns]

theorem collapseAux_sorted (t : List ℚ) (prev : ℚ)
    (hs : List.Sorted (· ≤ ·) (prev :: t)) :
    List.Sorted (· < ·) (prev :: collapseAux prev t) := by
  induction t generalizing prev with
  | nil => simp [collapseAux]
  | cons x xs ih =>
      rw [List.sorted_cons] at hs
      obtain ⟨hle, hxs⟩ := hs
      by_cases hx : x = prev
      · subst hx
        rw [collapseAux, if_pos rfl]
        exact ih x hxs
      · rw [collapseAux, if_neg hx]
        have h' := ih x hxs
        rw [List.sorted_cons]
        have hpx : prev < x := lt_of_le_of_ne (hle x (by simp)) (Ne.symm hx)
        refine ⟨?_, h'⟩
        intro b hb
        rcases List.mem_cons.mp hb with hb | hb
        · exact hb ▸ hpx
        · exact lt_trans hpx ((List.sorted_cons.mp h').1 b hb)

theorem collapseRuns_sorted (l : List ℚ) (hs : List.Sorted (· ≤ ·) l) :
    List.Sorted (· < ·) (collapseRuns l) := by
  cases l with
  | nil => simp [collapseRuns]
  | cons a t => exact collapseAux_sorted t a hs

theorem mem_cons_collapseAux (t : List ℚ) (prev x : ℚ) :
    x ∈ prev :: collapseAux prev t ↔ x ∈ prev :: t := by
  induction t generalizing prev with
  | nil => rfl
  | cons y ys ih =>
      by_cases hy : y = prev
      · rw [collapseAux, if_pos hy, hy, ih]
        simp
      · rw [collapseAux, if_neg hy]
        have h' := ih y
        simp only [List.mem_cons] at h' ⊢
        tauto

theorem mem_collapseRuns (l : List ℚ) (x : ℚ) : x ∈ collapseRuns l ↔ x ∈ l := by
  cases l with
  | nil => rfl
  | cons a t => exact mem_cons_collapseAux t a x

theorem zip_eq_range_map (l₁ l₂ : List ℚ) (h : l₁.length = l₂.length) :
    l₁.zip l₂ = (List.range l₁.length).map (fun i => (l₁.getD i 0, l₂.getD i 0)) := by
  apply List.ext_getElem
  · simp [List.length_zip, h]
  · intro i h₁ h₂
    have hi₁ : i < l₁.length := by simpa [List.length_zip, h] using h₁
    have hi₂ : i < l₂.length := h ▸ hi₁
    simp only [List.getElem_zip, List.getElem_map, List.getElem_range]
    rw [List.getD_eq_getElem _ _ hi₁, List.getD_eq_getElem _ _ hi₂]

theorem sum_pos_of_mem (l : List ℚ) (hnn : ∀ x ∈ l, 0 ≤ x) (x : ℚ) (hx : x ∈ l)
    (hp : 0 < x) : 0 < l.sum :=
  lt_of_lt_of_le hp (List.single_le_sum hnn x hx)

/-! ### C1: the per-quantile level-selection rule -/

theorem levelFor_eq_specLevel (hist : List ℚ) (q : ℚ)
    (hnn : ∀ x ∈ hist, 0 ≤ x) (hpos : ∃ x ∈ hist, 0 < x) :
    levelFor (sortDesc hist) (cumsum (sortDesc hist)) q = specLevel hist q := by
  obtain ⟨x, hx, hxp⟩ := hpos
  have hne : hist ≠ [] := by rintro rfl; simp at hx
  have hsne : sortDesc hist ≠ [] := by
    intro h0
    apply hne
    have hp := sortDesc_perm hist
    rw [h0] at hp
    exact hp.symm.eq_nil
  have hsum : (sortDesc hist).sum = hist.sum := (sortDesc_perm hist).sum_eq
  have htot : (0 : ℚ) < hist.sum := by
    refine sum_pos_of_mem hist hnn x hx hxp
  have hlast : (cumsum (sortDesc hist)).getLastD 0 = hist.sum := by
    rw [cumsum_getLastD _ hsne, hsum]
  unfold levelFor specLevel
  simp only [hlast]
  rw [zip_eq_range_map _ _ (cumsum_length _).symm]
  rw [List.filter_map, List.map_map]
  have hfil :
      ((List.range (sortDesc hist).length).filter
          ((fun p => normLe p.2 hist.sum q) ∘ fun i => ((sortDesc hist).getD i 0, (cumsum (sortDesc hist)).getD i 0)))
        = ((List.range (sortDesc hist).length).filter
          (fun i => decide (((sortDesc hist).take (i + 1)).sum / hist.sum ≤ q))) := by
    apply List.filter_congr
    intro i hi
    have hilt : i < (sortDesc hist).length := List.mem_range.mp hi
    simp only [Function.comp_apply, normLe, if_neg (ne_of_gt htot)]
    rw [cumsum_getD _ _ hilt]
  rw [hfil, List.getLast?_map]
  cases hgl : ((List.range (sortDesc hist).length).filter
      (fun i => decide (((sortDesc hist).take (i + 1)).sum / hist.sum ≤ q))).getLast? with
  | none => rfl
  | some i => rfl

/-- C1: for every density grid with at least one strictly positive entry
and target quantiles strictly in (0, 1), `_dfm_levels` computes each
per-quantile level by flattening, sorting descending, forming the
total-normalized cumulative sum, and taking the last sorted density value
whose normalized cumulative value does not exceed `q`; when there is no
such value it falls back to the single largest density value. -/
theorem dfm_level_rule (hist qs : List ℚ)
    (hnn : ∀ x ∈ hist, 0 ≤ x) (hpos : ∃ x ∈ hist, 0 < x)
    (hq : ∀ q ∈ qs, 0 < q ∧ q < 1) :
    dfmRawLevels hist qs = qs.map (specLevel hist) := by
  unfold dfmRawLevels
  exact List.map_congr_left fun q _ => levelFor_eq_specLevel hist q hnn hpos

/-- Witness for C1 at the grid `[1, 2, 3, 4]` and quantiles `[1/2, 19/20]`. -/
theorem dfm_level_rule_witness :
    (∀ x ∈ [(1 : ℚ), 2, 3, 4], 0 ≤ x) ∧ (∃ x ∈ [(1 : ℚ), 2, 3, 4], 0 < x) ∧
    (∀ q ∈ [(1 : ℚ)/2, 19/20], 0 < q ∧ q < 1) ∧
    dfmRawLevels [1, 2, 3, 4] [1/2, 19/20] = ([1/2, 19/20] : List ℚ).map (specLevel [1, 2, 3, 4]) :=
  ⟨by norm_num, by norm_num, by norm_num,
    dfm_level_rule [1, 2, 3, 4] [1/2, 19/20] (by norm_num) (by norm_num) (by norm_num)⟩

/-! ### C2: duplicate-level removal in corner.py's `_dfm_levels` -/

theorem corner_fst_eq_collapse (hist qs : List ℚ) :
    (corner_dfm_levels hist qs).1 = collapseRuns (sortAsc (dfmRawLevels hist qs)) := by
  simp only [corner_dfm_levels]
  rw [maskDelete_badMask]
  exact sortAsc_eq_self ((collapseRuns_sorted _ (sortAsc_sorted _)).imp fun h => le_of_lt h)

/-- C2 (amended): `corner.py`'s `_dfm_levels` removes every level equal to
its ascending neighbour (`diff == 0`) together with the same-position entry
of the quantile array: the returned levels are strictly increasing, have
the same length as the returned quantiles, consist of exactly the values of
the raw per-quantile levels, and the returned quantiles are an
order-preserving subsequence of the input quantiles.  (`plot.py`'s
`_dfm_levels` leaves this removal commented out; see the counterexample.) -/
theorem corner_dfm_levels_dedup (hist qs : List ℚ) (hne : hist ≠ [])
    (hqs : List.Sorted (· < ·) qs) :
    ((corner_dfm_levels hist qs).1).Sorted (· < ·) ∧
    (corner_dfm_levels hist qs).1.length = (corner_dfm_levels hist qs).2.length ∧
    (∀ x, x ∈ (corner_dfm_levels hist qs).1 ↔ x ∈ dfmRawLevels hist qs) ∧
    List.Sublist (corner_dfm_levels hist qs).2 qs := by
  have hfst := corner_fst_eq_collapse hist qs
  have hsnd : (corner_dfm_levels hist qs).2
      = maskDelete qs (badMask (sortAsc (dfmRawLevels hist qs))) := by
    simp only [corner_dfm_levels]
  refine ⟨?_, ?_, ?_, ?_⟩
  · rw [hfst]
    exact collapseRuns_sorted _ (sortAsc_sorted _)
  · rw [hfst, hsnd, ← maskDelete_badMask]
    apply maskDelete_length_eq
    rw [(sortAsc_perm _).length_eq]
    simp [dfmRawLevels]
  · intro x
    rw [hfst, mem_collapseRuns, (sortAsc_perm _).mem_iff]
  · rw [hsnd]
    exact maskDelete_sublist _ _

/-- Witness for the amended C2 at the grid `[0, 1]` and quantiles
`[39/100, 86/100]`. -/
theorem corner_dfm_levels_dedup_witness :
    (([(0 : ℚ), 1] : List ℚ) ≠ []) ∧ List.Sorted (· < ·) [(39 : ℚ)/100, 86/100] ∧
    (((corner_dfm_levels [0, 1] [39/100, 86/100]).1).Sorted (· < ·) ∧
     (corner_dfm_levels [0, 1] [39/100, 86/100]).1.length
       = (corner_dfm_levels [0, 1] [39/100, 86/100]).2.length ∧
     (∀ x, x ∈ (corner_dfm_levels [0, 1] [39/100, 86/100]).1
        ↔ x ∈ dfmRawLevels [0, 1] [39/100, 86/100]) ∧
     List.Sublist (corner_dfm_levels [0, 1] [39/100, 86/100]).2 [39/100, 86/100]) :=
  ⟨by simp, by norm_num [List.sorted_cons],
    corner_dfm_levels_dedup [0, 1] [39/100, 86/100] (by simp)
      (by norm_num [List.sorted_cons])⟩

/-- C2 counterexample: `plot.py`'s `_dfm_levels` on the single-nonzero-cell
grid `[0, 1]` with the ascending quantiles `[39/100, 86/100]` returns the
duplicate levels `[1, 1]` with the quantiles unchanged — the returned
levels are not strictly increasing, because the removal step the claim
describes is commented out in that copy of the function. -/
theorem plot_dfm_levels_keeps_duplicates :
    plot_dfm_levels [0, 1] [39/100, 86/100] = ([1, 1], [39/100, 86/100]) ∧
    ¬ ((plot_dfm_levels [0, 1] [39/100, 86/100]).1.Sorted (· < ·)) := by
  have h : plot_dfm_levels [0, 1] [39/100, 86/100] = ([1, 1], [39/100, 86/100]) := by
    norm_num [plot_dfm_levels, dfmRawLevels, sortDesc, sortAsc, cumsum, levelFor, normLe,
      List.insertionSort, List.orderedInsert, List.range_succ]
  refine ⟨h, ?_⟩
  rw [h]
  intro hs
  exact absurd ((List.sorted_cons.mp hs).1 1 (by simp)) (lt_irrefl 1)

/-! ### Constant-raw-level grids: shared machinery for C6 and C7 -/

theorem levelFor_of_all_false (hsort cum : List ℚ) (q : ℚ)
    (h : ∀ p ∈ hsort.zip cum, normLe p.2 (cum.getLastD 0) q = false) :
    levelFor hsort cum q = hsort.headI := by
  unfold levelFor
  rw [List.filter_eq_nil_iff.mpr ?_]
  · rfl
  · intro a ha hcontra
    rw [h a ha] at hcontra
    exact Bool.false_ne_true hcontra

theorem cumsum_replicate_zero (n : ℕ) :
    cumsum (List.replicate n (0 : ℚ)) = List.replicate n 0 := by
  unfold cumsum
  have h1 : ∀ i ∈ List.range (List.replicate n (0 : ℚ)).length,
      ((List.replicate n (0 : ℚ)).take (i + 1)).sum = 0 := by
    intro i _
    rw [List.take_replicate, List.sum_replicate]
    simp
  rw [List.map_congr_left h1, List.map_const']
  simp

theorem cumsum_v_zeros (v : ℚ) (k : ℕ) :
    cumsum (v :: List.replicate k 0) = List.replicate (k + 1) v := by
  unfold cumsum
  have hlen : (v :: List.replicate k (0 : ℚ)).length = k + 1 := by simp
  rw [hlen]
  have h1 : ∀ i ∈ List.range (k + 1),
      ((v :: List.replicate k (0 : ℚ)).take (i + 1)).sum = v := by
    intro i _
    rw [List.take_succ_cons, List.sum_cons, List.take_replicate, List.sum_replicate]
    simp
  rw [List.map_congr_left h1, List.map_const']
  simp

theorem sortDesc_replicate_zero (n : ℕ) :
    sortDesc (List.replicate n (0 : ℚ)) = List.replicate n 0 :=
  List.Sorted.insertionSort_eq (List.pairwise_replicate.mpr (Or.inr le_rfl))

theorem sortDesc_single_cell (hist : List ℚ) (v : ℚ) (k : ℕ)
    (hp : hist.Perm (v :: List.replicate k 0)) (hv : 0 < v) :
    sortDesc hist = v :: List.replicate k 0 := by
  apply List.eq_of_perm_of_sorted ((sortDesc_perm hist).trans hp) (sortDesc_sorted hist)
  rw [List.sorted_cons]
  constructor
  · intro b hb
    rcases List.mem_replicate.mp hb with ⟨_, rfl⟩
    exact le_of_lt hv
  · exact List.pairwise_replicate.mpr (Or.inr le_rfl)

theorem dfmRawLevels_const (hist qs : List ℚ) (v : ℚ)
    (h : ∀ q ∈ qs, levelFor (sortDesc hist) (cumsum (sortDesc hist)) q = v) :
    dfmRawLevels hist qs = List.replicate qs.length v := by
  simp only [dfmRawLevels]
  rw [List.map_congr_left h, List.map_const']

theorem getLastD_replicate (v : ℚ) (n : ℕ) :
    (List.replicate (n + 1) v).getLastD 0 = v := by
  induction n with
  | zero => rfl
  | succ m ih =>
      rw [List.replicate_succ, List.getLastD_cons]
      rw [List.replicate_succ, List.getLastD_cons] at ih ⊢
      cases m with
      | zero => rfl
      | succ m' =>
          rw [List.replicate_succ, List.getLastD_cons] at ih ⊢
          exact ih

theorem badMask_replicate (n : ℕ) (v : ℚ) :
    badMask (List.replicate (n + 1) v) = false :: List.replicate n true := by
  unfold badMask
  congr 1
  have ht : (List.replicate (n + 1) v).tail = List.replicate n v := by
    rw [List.replicate_succ, List.tail_cons]
  rw [ht]
  have hz : (List.replicate n v).zip (List.replicate (n + 1) v)
      = List.replicate n (v, v) := by
    rw [List.zip_replicate]
    congr 1
    omega
  rw [hz, List.map_replicate]
  simp

theorem collapseAux_replicate (v : ℚ) (m : ℕ) :
    collapseAux v (List.replicate m v) = [] := by
  induction m with
  | zero => rfl
  | succ m' ih =>
      rw [List.replicate_succ, collapseAux, if_pos rfl]
      exact ih

theorem collapseRuns_replicate (v : ℚ) (n : ℕ) :
    collapseRuns (List.replicate (n + 1) v) = [v] := by
  rw [List.replicate_succ, collapseRuns, collapseAux_replicate]

theorem corner_dfm_levels_of_const_raw (hist qs : List ℚ) (v : ℚ) (hne : qs ≠ [])
    (hraw : dfmRawLevels hist qs = List.replicate qs.length v) :
    corner_dfm_levels hist qs = ([v], qs.take 1) := by
  obtain ⟨q0, qrest, rfl⟩ := List.exists_cons_of_ne_nil hne
  have hlen : (q0 :: qrest).length = qrest.length + 1 := by simp
  have hsorted : sortAsc (List.replicate (qrest.length + 1) v)
      = List.replicate (qrest.length + 1) v :=
    List.Sorted.insertionSort_eq (List.pairwise_replicate.mpr (Or.inr le_rfl))
  have h1 : sortAsc (maskDelete (List.replicate (qrest.length + 1) v)
      (badMask (List.replicate (qrest.length + 1) v))) = [v] := by
    rw [maskDelete_badMask, collapseRuns_replicate]
    exact sortAsc_eq_self (by simp)
  have h2 : maskDelete (q0 :: qrest) (badMask (List.replicate (qrest.length + 1) v))
      = [q0] := by
    rw [badMask_replicate, maskDelete_cons, if_neg (by simp),
      maskDelete_all_true qrest qrest.length le_rfl]
  simp only [corner_dfm_levels, hraw, hlen, hsorted, h1, h2]
  simp

/-- C7: for every grid with exactly one nonzero cell (of value `v > 0`) and
every nonempty ascending quantile sequence with entries strictly in (0, 1),
`corner.py`'s `_dfm_levels` returns exactly one surviving level, equal to
that cell's value (paired with the first quantile). -/
theorem corner_dfm_levels_single_cell (hist qs : List ℚ) (v : ℚ) (k : ℕ)
    (hp : hist.Perm (v :: List.replicate k 0)) (hv : 0 < v)
    (hq : ∀ q ∈ qs, 0 < q ∧ q < 1) (hqs : List.Sorted (· < ·) qs) (hne : qs ≠ []) :
    corner_dfm_levels hist qs = ([v], qs.take 1) := by
  apply corner_dfm_levels_of_const_raw hist qs v hne
  apply dfmRawLevels_const
  intro q hqmem
  rw [sortDesc_single_cell hist v k hp hv, cumsum_v_zeros]
  rw [levelFor_of_all_false]
  · rfl
  · rintro ⟨c, d⟩ hpmem
    have hd : d ∈ List.replicate (k + 1) v := (List.of_mem_zip hpmem).2
    rcases List.mem_replicate.mp hd with ⟨_, rfl⟩
    rw [getLastD_replicate]
    unfold normLe
    rw [if_neg hv.ne']
    simp only [div_self hv.ne']
    exact decide_eq_false (not_le.mpr (hq q hqmem).2)

/-- Witness for C7 at the grid `[5, 0, 0]` and quantiles `[1/2]`. -/
theorem corner_dfm_levels_single_cell_witness :
    ([(5 : ℚ), 0, 0].Perm (5 :: List.replicate 2 0)) ∧ ((0 : ℚ) < 5) ∧
    (∀ q ∈ [(1 : ℚ)/2], 0 < q ∧ q < 1) ∧ List.Sorted (· < ·) [(1 : ℚ)/2] ∧
    ([(1 : ℚ)/2] ≠ []) ∧
    corner_dfm_levels [5, 0, 0] [1/2] = ([5], [(1 : ℚ)/2].take 1) :=
  ⟨List.Perm.refl _, by norm_num, by norm_num, by simp, by simp,
    corner_dfm_levels_single_cell [5, 0, 0] [1/2] 5 2 (List.Perm.refl _) (by norm_num)
      (by norm_num) (by simp) (by simp)⟩

/-! ### C6: behaviour of the level solver on an all-zero grid -/

/-- C6 counterexample: on the all-zero 2×2 grid (flattened, with quantiles
`[39/100, 86/100]`) the level solver returns the numeric result
`([0], [39/100])` rather than raising anything: nothing named
`DegenerateInputError` exists in the source, the zero-total normalization
produces NaNs whose comparisons are all false, every quantile falls back to
`hflat[0] = 0`, and duplicate removal leaves the single zero level. -/
theorem corner_dfm_levels_all_zero_example :
    corner_dfm_levels [0, 0, 0, 0] [39/100, 86/100] = ([0], [39/100]) := by
  norm_num [corner_dfm_levels, dfmRawLevels, sortDesc, sortAsc, cumsum, levelFor, normLe,
    badMask, maskDelete, List.insertionSort, List.orderedInsert, List.range_succ]

/-- C6 (amended): calling the level solver on an all-zero grid of any size
raises no error and returns the numeric result `([0.0], [first quantile])`. -/
theorem corner_dfm_levels_all_zero (n : ℕ) (qs : List ℚ) (hn : 1 ≤ n) (hne : qs ≠ []) :
    corner_dfm_levels (List.replicate n 0) qs = ([0], qs.take 1) := by
  apply corner_dfm_levels_of_const_raw _ _ _ hne
  apply dfmRawLevels_const
  intro q hq
  rw [sortDesc_replicate_zero, cumsum_replicate_zero]
  rw [levelFor_of_all_false]
  · obtain ⟨m, rfl⟩ := Nat.exists_eq_add_of_le hn
    rw [show 1 + m = m + 1 by omega, List.replicate_succ]
    rfl
  · rintro ⟨c, d⟩ hpmem
    have hd : d ∈ List.replicate n (0 : ℚ) := (List.of_mem_zip hpmem).2
    rcases List.mem_replicate.mp hd with ⟨_, rfl⟩
    have hlast : (List.replicate n (0 : ℚ)).getLastD 0 = 0 := by
      obtain ⟨m, rfl⟩ := Nat.exists_eq_add_of_le hn
      rw [show 1 + m = m + 1 by omega, getLastD_replicate]
    rw [hlast]
    unfold normLe
    rw [if_pos rfl]

/-- Witness for the amended C6 at the all-zero grid of size 3 and
quantiles `[1/2]`. -/
theorem corner_dfm_levels_all_zero_witness :
    1 ≤ 3 ∧ ([(1 : ℚ)/2] ≠ []) ∧
    corner_dfm_levels (List.replicate 3 0) [1/2] = ([0], [(1 : ℚ)/2].take 1) :=
  ⟨by norm_num, by simp,
    corner_dfm_levels_all_zero 3 [1/2] (by norm_num) (by simp)⟩

/-! ### C9: edge/grid shape validation -/

theorem midpoints_length (l : List ℚ) : (midpoints l).length = l.length - 1 := by
  simp only [midpoints, List.length_map, List.length_zip, List.length_tail]
  omega

/-- C9 counterexample: `_match_edges_to_hist` given a 2×2 histogram and
per-dimension edge arrays of length 2 (equal to the shape, not shape + 1)
proceeds without error and returns the edges unchanged, even though the
invariant `len(edges[d]) == shape[d] + 1` fails in both dimensions. -/
theorem match_edges_accepts_centers :
    match_edges_to_hist [2, 2] [[(1 : ℚ), 2], [3, 4]] = Except.ok [[(1 : ℚ), 2], [3, 4]] ∧
    [[(1 : ℚ), 2], [3, 4]].map (fun e => (e.length : ℤ)) ≠ [2 + 1, 2 + 1] := by
  constructor
  · rfl
  · simp

/-- C9 (amended): `_draw_hist1d` validates `len(edges) == len(hist) + 1`
exactly and raises on any mismatch, while `_match_edges_to_hist` accepts
edge arrays of length either `shape[d] + 1` (converted to bin centers) or
`shape[d]` (passed through as centers) and raises only when neither holds;
in every accepted case the returned per-dimension arrays have length
exactly `shape[d]`. -/
theorem edge_validation (ed hist : List ℚ) (shape : List ℤ) (edges res : List (List ℚ))
    (hsh : ∀ s ∈ shape, 0 ≤ s)
    (hok : match_edges_to_hist shape edges = Except.ok res) :
    ((draw_hist1d_check ed hist).isOk = true ↔ ed.length = hist.length + 1) ∧
    res.map (fun l => (l.length : ℤ)) = shape := by
  constructor
  · unfold draw_hist1d_check
    by_cases h : ed.length = hist.length + 1
    · simp [h, Except.isOk, Except.toBool]
    · simp [h, Except.isOk, Except.toBool]
  · unfold match_edges_to_hist at hok
    by_cases h1 : shape = edges.map (fun e => (e.length : ℤ))
    · rw [if_pos h1] at hok
      have hres : res = edges := by
        injection hok with h'
        exact h'.symm
      rw [hres, h1]
    · rw [if_neg h1] at hok
      by_cases hcase : shape = edges.map (fun e => (e.length : ℤ) - 1)
      · rw [if_pos hcase] at hok
        have hres : res = edges.map midpoints := by
          injection hok with h'
          exact h'.symm
        rw [hres, List.map_map, hcase]
        apply List.map_congr_left
        intro e he
        have hmem : ((e.length : ℤ) - 1) ∈ shape := by
          rw [hcase]
          exact List.mem_map_of_mem _ he
        have hge : 1 ≤ e.length := by
          have := hsh _ hmem
          omega
        simp only [Function.comp_apply, midpoints_length]
        omega
      · rw [if_neg hcase] at hok
        exact absurd hok (by simp)

/-- Witness for the amended C9: a 1D histogram of shape `[2]` with the
3-point edge array `[0, 1, 2]` is accepted and converted to the 2 midpoints
`[1/2, 3/2]`, and `_draw_hist1d`'s check accepts edges `[0, 1]` with the
one-bin histogram `[5]`. -/
theorem edge_validation_witness :
    (∀ s ∈ [(2 : ℤ)], 0 ≤ s) ∧
    match_edges_to_hist [2] [[(0 : ℚ), 1, 2]] = Except.ok [[(1 : ℚ)/2, 3/2]] ∧
    (((draw_hist1d_check [0, 1] [5]).isOk = true
        ↔ ([(0 : ℚ), 1] : List ℚ).length = ([(5 : ℚ)] : List ℚ).length + 1) ∧
      [[(1 : ℚ)/2, 3/2]].map (fun l => (l.length : ℤ)) = [2]) :=
  ⟨by norm_num, by norm_num [match_edges_to_hist, midpoints],
    edge_validation [0, 1] [5] [2] [[(0 : ℚ), 1, 2]] [[(1 : ℚ)/2, 3/2]] (by norm_num)
      (by norm_num [match_edges_to_hist, midpoints])⟩

/-! ### C10: mutation of caller-supplied and default-argument dicts -/

theorem isPrefix_setdefault {α : Type} (d : List (String × α)) (k : String) (v : α) :
    List.IsPrefix d (setdefault d k v) := by
  unfold setdefault
  by_cases h : (d.lookup k).isSome
  · rw [if_pos h]
  · rw [if_neg h]
    exact List.prefix_append d _

theorem isPrefix_setdefaults {α : Type} (d ds : List (String × α)) :
    List.IsPrefix d (setdefaults d ds) := by
  induction ds generalizing d with
  | nil => exact List.prefix_refl d
  | cons kv rest ih =>
      obtain ⟨k, v⟩ := kv
      exact (isPrefix_setdefault d k v).trans (ih _)

/-- C10 counterexample: `_none_dict` called with a caller's empty dict and
the defaults `{"density": false}` hands back that same dict with the
default key written into it — the passed-in dict's state after the call
differs from its state before, so the operation mutates its argument
rather than leaving it unchanged. -/
theorem none_dict_mutates :
    none_dict (PyVal.pdict ([] : List (String × Bool))) [("density", false)]
      = Except.ok (some [("density", false)]) ∧
    ([("density", false)] : List (String × Bool)) ≠ [] := by
  constructor
  · rfl
  · simp

/-- C10 (amended): the numeric core routines allocate fresh outputs, but
the option-parsing helpers mutate dictionaries in place: `_none_dict`
returns the very dict object it was passed with every missing default key
appended (the caller's original entries survive as a prefix of the mutated
dict), and `Corner.hist` writes its four per-call defaults into the shared
mutable `dist1d={}` default-argument dict. -/
theorem none_dict_setdefault_mutation {α : Type} (d ds : List (String × α)) :
    none_dict (PyVal.pdict d) ds = Except.ok (some (setdefaults d ds)) ∧
    List.IsPrefix d (setdefaults d ds) ∧
    corner_hist_dist1d [] = corner_hist_dist1d_defaults := by
  refine ⟨rfl, isPrefix_setdefaults d ds, ?_⟩
  simp [corner_hist_dist1d, corner_hist_dist1d_defaults, setdefaults, setdefault, List.lookup]

/-! ### C5: grid padding -/

theorem getD_append_left {l₁ l₂ : List ℚ} {i : ℕ} (h : i < l₁.length) :
    (l₁ ++ l₂).getD i 0 = l₁.getD i 0 := by
  rw [List.getD_eq_getElem _ _ (by simp; omega), List.getD_eq_getElem _ _ h]
  exact List.getElem_append_left h

theorem getD_append_right {l₁ l₂ : List ℚ} {i : ℕ} (h : l₁.length ≤ i)
    (h2 : i - l₁.length < l₂.length) :
    (l₁ ++ l₂).getD i 0 = l₂.getD (i - l₁.length) 0 := by
  rw [List.getD_eq_getElem _ _ (by simp; omega), List.getD_eq_getElem _ _ h2]
  exact List.getElem_append_right h

theorem getD_range_map (f : ℕ → ℚ) (n i : ℕ) (h : i < n) :
    ((List.range n).map f).getD i 0 = f i := by
  rw [List.getD_eq_getElem _ _ (by simpa using h)]
  simp

theorem getLastD_eq_getD_length_sub_one (l : List ℚ) (h : l ≠ []) :
    l.getLastD 0 = l.getD (l.length - 1) 0 := by
  have hn : 0 < l.length := List.length_pos.mpr h
  rw [List.getLastD_eq_getLast?, List.getLast?_eq_getElem?,
    List.getElem?_eq_getElem (by omega), List.getD_eq_getElem _ _ (by omega)]
  rfl

theorem headI_eq_getD_zero (l : List ℚ) (h : l ≠ []) : l.headI = l.getD 0 0 := by
  cases l with
  | nil => exact absurd rfl h
  | cons a t => rfl

theorem getD_replicate_lt (v : ℚ) (n i : ℕ) (h : i < n) :
    (List.replicate n v).getD i 0 = v := by
  rw [List.getD_eq_getElem _ _ (by simpa using h)]
  simp

theorem pad_hist_fst (edges hist : List ℚ) (pad : ℕ) :
    (pad_hist edges hist pad).1
      = (List.range pad).map
          (fun i => edges.headI - ((pad - i : ℕ) : ℚ) * (edges.getD 1 0 - edges.getD 0 0))
        ++ edges
        ++ (List.range pad).map
          (fun i => edges.getLastD 0
            + ((i + 1 : ℕ) : ℚ) * (edges.getLastD 0 - edges.getD (edges.length - 2) 0)) :=
  rfl

theorem pad_hist_snd (edges hist : List ℚ) (pad : ℕ) :
    (pad_hist edges hist pad).2
      = List.replicate pad (hist.min?.getD 0) ++ hist
        ++ List.replicate pad (hist.min?.getD 0) :=
  rfl

/-- C5 counterexample: `_pad_hist` pads the grid with the grid's global
minimum (`np.pad(..., constant_values=hist.min())`), not by replicating the
boundary density value: for edges `[0, 1, 2]`, grid `[1, 2]`, pad width 1
the code produces the padded grid `[1, 1, 2, 1]`, while boundary
replication would produce `[1, 1, 2, 2]` (they differ in the last bin). -/
theorem pad_hist_not_replicate :
    (pad_hist [0, 1, 2] [1, 2] 1).2 = [1, 1, 2, 1] ∧
    padReplicate [1, 2] 1 = [1, 1, 2, 2] ∧
    (pad_hist [0, 1, 2] [1, 2] 1).2 ≠ padReplicate [1, 2] 1 := by
  have h1 : (pad_hist [0, 1, 2] [1, 2] 1).2 = [1, 1, 2, 1] := by
    norm_num [pad_hist, List.min?, List.range_succ]
  have h2 : padReplicate [1, 2] 1 = [1, 1, 2, 2] := by
    norm_num [padReplicate]
  refine ⟨h1, h2, ?_⟩
  rw [h1, h2]
  simp

/-- C5 (amended): `_pad_hist` extends the edge array by `pad` bins on each
side, placing each new edge by extrapolating with the local spacing at that
boundary (the difference of the two outermost existing edges on that side)
and preserving the original edges and the invariant
`len(padded_edges) == len(padded_grid) + 1`; the grid, however, is padded
with the constant `hist.min()` — the grid's global minimum value — in the
added bins on both sides, not by replicating the boundary density value. -/
theorem pad_hist_spec (edges hist : List ℚ) (pad : ℕ)
    (hlen : edges.length = hist.length + 1) (h2 : 2 ≤ edges.length) :
    ((pad_hist edges hist pad).1.length = (pad_hist edges hist pad).2.length + 1) ∧
    (∀ i, i < edges.length →
      (pad_hist edges hist pad).1.getD (pad + i) 0 = edges.getD i 0) ∧
    (∀ i, i < pad →
      (pad_hist edges hist pad).1.getD (i + 1) 0 - (pad_hist edges hist pad).1.getD i 0
        = edges.getD 1 0 - edges.getD 0 0) ∧
    (∀ i, i < pad →
      (pad_hist edges hist pad).1.getD (pad + edges.length + i) 0
          - (pad_hist edges hist pad).1.getD (pad + edges.length + i - 1) 0
        = edges.getLastD 0 - edges.getD (edges.length - 2) 0) ∧
    (∀ i, i < hist.length →
      (pad_hist edges hist pad).2.getD (pad + i) 0 = hist.getD i 0) ∧
    (∀ i, i < pad →
      (pad_hist edges hist pad).2.getD i 0 = hist.min?.getD 0 ∧
      (pad_hist edges hist pad).2.getD (pad + hist.length + i) 0 = hist.min?.getD 0) := by
  have hene : edges ≠ [] := by
    intro h0
    rw [h0] at h2
    simp at h2
  rw [pad_hist_fst, pad_hist_snd]
  set m := hist.min?.getD 0 with hm
  set e0 := edges.headI with he0
  set d0 := edges.getD 1 0 - edges.getD 0 0 with hd0
  set en := edges.getLastD 0 with hen
  set dn := en - edges.getD (edges.length - 2) 0 with hdn
  set left := (List.range pad).map (fun i => e0 - ((pad - i : ℕ) : ℚ) * d0) with hleft
  set right := (List.range pad).map (fun i => en + ((i + 1 : ℕ) : ℚ) * dn) with hright
  have hleftlen : left.length = pad := by simp [hleft]
  have hrightlen : right.length = pad := by simp [hright]
  have hedge_mid : ∀ i, i < edges.length →
      (left ++ edges ++ right).getD (pad + i) 0 = edges.getD i 0 := by
    intro i hi
    rw [getD_append_left (by simp only [List.length_append, hleftlen]; omega)]
    rw [getD_append_right (by rw [hleftlen]; omega) (by rw [hleftlen]; omega)]
    have hidx : pad + i - left.length = i := by rw [hleftlen]; omega
    rw [hidx]
  have hlv : ∀ j, j < pad →
      (left ++ edges ++ right).getD j 0 = e0 - ((pad - j : ℕ) : ℚ) * d0 := by
    intro j hj
    rw [getD_append_left (by simp only [List.length_append, hleftlen]; omega),
      getD_append_left (by rw [hleftlen]; exact hj), hleft, getD_range_map _ _ _ hj]
  have hrv : ∀ j, j < pad →
      (left ++ edges ++ right).getD (pad + edges.length + j) 0
        = en + ((j + 1 : ℕ) : ℚ) * dn := by
    intro j hj
    rw [getD_append_right
      ((by simp only [List.length_append, hleftlen]; omega :
        (left ++ edges).length ≤ pad + edges.length + j))
      (by simp only [List.length_append, hleftlen, hrightlen]; omega)]
    have hidx : pad + edges.length + j - (left ++ edges).length = j := by
      simp only [List.length_append, hleftlen]
      omega
    rw [hidx, hright, getD_range_map _ _ _ hj]
  refine ⟨?_, hedge_mid, ?_, ?_, ?_, ?_⟩
  · simp only [List.length_append, hleftlen, hrightlen, List.length_replicate]
    omega
  · intro i hi
    by_cases hip : i + 1 < pad
    · rw [hlv _ hip, hlv _ hi]
      have hcast : ((pad - (i + 1) : ℕ) : ℚ) = ((pad - i : ℕ) : ℚ) - 1 := by
        have hstep : (pad - (i + 1) : ℕ) + 1 = (pad - i : ℕ) := by omega
        have hc := congrArg (fun n : ℕ => (n : ℚ)) hstep
        push_cast at hc
        linarith
      rw [hcast, hd0]
      ring
    · have hip' : i + 1 = pad := by omega
      rw [hlv _ hi, hip']
      have hmid0 : (left ++ edges ++ right).getD pad 0 = edges.getD 0 0 := by
        have hh0 := hedge_mid 0 (by omega)
        simpa using hh0
      rw [hmid0]
      have hpi : (pad - i : ℕ) = 1 := by omega
      rw [hpi, he0, headI_eq_getD_zero edges hene, hd0]
      push_cast
      ring
  · intro i hi
    by_cases hz : i = 0
    · subst hz
      have hB : pad + edges.length + 0 - 1 = pad + (edges.length - 1) := by omega
      rw [hrv 0 hi, hB, hedge_mid (edges.length - 1) (by omega)]
      rw [← getLastD_eq_getD_length_sub_one edges hene, ← hen, hdn]
      push_cast
      ring
    · have hB : pad + edges.length + i - 1 = pad + edges.length + (i - 1) := by omega
      rw [hB, hrv (i - 1) (by omega), hrv i hi]
      have hstep : (i - 1 : ℕ) + 1 = i := by omega
      rw [hstep, hdn]
      push_cast
      ring
  · intro i hi
    rw [getD_append_left (by simp; omega)]
    rw [getD_append_right ((by simp : (List.replicate pad m).length ≤ pad + i))
      (by simp; omega)]
    have hidx : pad + i - (List.replicate pad m).length = i := by simp
    rw [hidx]
  · intro i hi
    constructor
    · rw [getD_append_left (by simp; omega), getD_append_left (by simpa using hi),
        getD_replicate_lt m pad i hi]
    · rw [getD_append_right
        ((by simp : (List.replicate pad m ++ hist).length ≤ pad + hist.length + i))
        (by simp; omega)]
      have hidx : pad + hist.length + i - (List.replicate pad m ++ hist).length = i := by
        simp
      rw [hidx, getD_replicate_lt m pad i hi]

/-- Witness for the amended C5 at edges `[0, 1, 3]` (non-uniform spacing),
grid `[5, 2]`, pad width 1. -/
theorem pad_hist_spec_witness :
    ([(0 : ℚ), 1, 3] : List ℚ).length = ([(5 : ℚ), 2] : List ℚ).length + 1 ∧
    2 ≤ ([(0 : ℚ), 1, 3] : List ℚ).length ∧
    (((pad_hist [0, 1, 3] [5, 2] 1).1.length = (pad_hist [0, 1, 3] [5, 2] 1).2.length + 1) ∧
     (∀ i, i < ([(0 : ℚ), 1, 3] : List ℚ).length →
       (pad_hist [0, 1, 3] [5, 2] 1).1.getD (1 + i) 0 = ([(0 : ℚ), 1, 3] : List ℚ).getD i 0) ∧
     (∀ i, i < 1 →
       (pad_hist [0, 1, 3] [5, 2] 1).1.getD (i + 1) 0 - (pad_hist [0, 1, 3] [5, 2] 1).1.getD i 0
         = ([(0 : ℚ), 1, 3] : List ℚ).getD 1 0 - ([(0 : ℚ), 1, 3] : List ℚ).getD 0 0) ∧
     (∀ i, i < 1 →
       (pad_hist [0, 1, 3] [5, 2] 1).1.getD (1 + ([(0 : ℚ), 1, 3] : List ℚ).length + i) 0
           - (pad_hist [0, 1, 3] [5, 2] 1).1.getD (1 + ([(0 : ℚ), 1, 3] : List ℚ).length + i - 1) 0
         = ([(0 : ℚ), 1, 3] : List ℚ).getLastD 0
             - ([(0 : ℚ), 1, 3] : List ℚ).getD (([(0 : ℚ), 1, 3] : List ℚ).length - 2) 0) ∧
     (∀ i, i < ([(5 : ℚ), 2] : List ℚ).length →
       (pad_hist [0, 1, 3] [5, 2] 1).2.getD (1 + i) 0 = ([(5 : ℚ), 2] : List ℚ).getD i 0) ∧
     (∀ i, i < 1 →
       (pad_hist [0, 1, 3] [5, 2] 1).2.getD i 0 = ([(5 : ℚ), 2] : List ℚ).min?.getD 0 ∧
       (pad_hist [0, 1, 3] [5, 2] 1).2.getD (1 + ([(5 : ℚ), 2] : List ℚ).length + i) 0
         = ([(5 : ℚ), 2] : List ℚ).min?.getD 0)) :=
  ⟨by norm_num, by norm_num,
    pad_hist_spec [0, 1, 3] [5, 2] 1 (by norm_num) (by norm_num)⟩

/-! ### C4: the 1D interval estimator of `contour1d` -/

theorem zip_getD_pair (l₁ l₂ : List ℚ) (i : ℕ) (h₁ : i < l₁.length) (h₂ : i < l₂.length) :
    (l₁.zip l₂).getD i (0, 0) = (l₁.getD i 0, l₂.getD i 0) := by
  rw [List.getD_eq_getElem _ _ (by rw [List.length_zip]; omega),
    List.getElem_zip, List.getD_eq_getElem _ _ h₁, List.getD_eq_getElem _ _ h₂]

theorem vals_getD_low (ps : List (ℚ × ℚ)) (ws : List ℚ) (k : ℕ) (hk : k < ws.length) :
    (((ws.map (· / 2)).map (fun q => 1/2 - q) ++ (ws.map (· / 2)).map (fun q => 1/2 + q)).map
        (fun q => interpP q ps)).getD k 0
      = interpP (1/2 - ws.getD k 0 / 2) ps := by
  rw [List.getD_eq_getElem _ _ (by simp; omega)]
  rw [List.getElem_map]
  rw [List.getElem_append_left (by simp; omega)]
  simp only [List.getElem_map]
  rw [List.getD_eq_getElem _ _ hk]

theorem vals_getD_high (ps : List (ℚ × ℚ)) (ws : List ℚ) (k : ℕ) (hk : k < ws.length) :
    (((ws.map (· / 2)).map (fun q => 1/2 - q) ++ (ws.map (· / 2)).map (fun q => 1/2 + q)).map
        (fun q => interpP q ps)).getD (k + ws.length) 0
      = interpP (1/2 + ws.getD k 0 / 2) ps := by
  rw [List.getD_eq_getElem _ _ (by simp; omega)]
  rw [List.getElem_map]
  rw [List.getElem_append_right (by simp)]
  simp only [List.length_map, Nat.add_sub_cancel, List.getElem_map]
  rw [List.getD_eq_getElem _ _ hk]

theorem contour1d_locs_getD (data ws : List ℚ) (weights : Option (List ℚ)) (k : ℕ)
    (hk : k < ws.length) :
    (contour1d_locs data weights ws).getD k (0, 0)
      = (interpP (1/2 - ws.getD k 0 / 2) (contour1d_cdf data weights),
         interpP (1/2 + ws.getD k 0 / 2) (contour1d_cdf data weights)) := by
  simp only [contour1d_locs]
  rw [List.getD_eq_getElem _ _ (by simpa using hk)]
  simp only [List.getElem_map, List.getElem_range]
  rw [vals_getD_low _ _ _ hk, vals_getD_high _ _ _ hk]

/-- C4: `contour1d` builds the empirical CDF as `i / (n - 1)` over the
ascending-sorted samples when `weights` is absent, and as the cumulative
sum of the identically-permuted weights normalized by their total when
weights are given; each quantile width `w` becomes the percentile pair
`(0.5 - w/2, 0.5 + w/2)`, each interval's bounds are the monotone linear
interpolation of the inverse CDF at those two percentiles (the `k`-th
returned row pairs exactly those two inversions), and the requested median
is the inversion at percentile `0.5`. -/
theorem contour1d_interval_rule (data ws wts : List ℚ) (k : ℕ)
    (hn : 2 ≤ data.length) (hk : k < ws.length) (hw : wts.length = data.length) :
    ((contour1d_locs data none ws).getD k (0, 0)
        = (interpP (1/2 - ws.getD k 0 / 2) (ecdfU data),
           interpP (1/2 + ws.getD k 0 / 2) (ecdfU data))) ∧
    ((contour1d_locs data (some wts) ws).getD k (0, 0)
        = (interpP (1/2 - ws.getD k 0 / 2) (ecdfW data wts),
           interpP (1/2 + ws.getD k 0 / 2) (ecdfW data wts))) ∧
    contour1d_median data none = interpP (1/2) (ecdfU data) ∧
    contour1d_median data (some wts) = interpP (1/2) (ecdfW data wts) ∧
    (∀ i, i < data.length →
      (ecdfU data).getD i (0, 0)
        = ((i : ℚ) / ((data.length : ℚ) - 1), (sortAsc data).getD i 0)) := by
  refine ⟨contour1d_locs_getD data ws none k hk, contour1d_locs_getD data ws (some wts) k hk,
    rfl, rfl, ?_⟩
  intro i hi
  have hsl : (sortAsc data).length = data.length := (sortAsc_perm data).length_eq
  simp only [ecdfU]
  rw [zip_getD_pair _ _ i
    (by rw [List.length_map, List.length_range, hsl]; exact hi)
    (by rw [hsl]; exact hi)]
  rw [getD_range_map _ _ _ (by rw [hsl]; exact hi), hsl]

/-- Witness for C4 at samples `[0, 1, 2]`, widths `[1/2]`,
weights `[1, 1, 2]`, row 0. -/
theorem contour1d_interval_rule_witness :
    2 ≤ ([(0 : ℚ), 1, 2] : List ℚ).length ∧ 0 < ([(1 : ℚ)/2] : List ℚ).length ∧
    ([(1 : ℚ), 1, 2] : List ℚ).length = ([(0 : ℚ), 1, 2] : List ℚ).length ∧
    (((contour1d_locs [0, 1, 2] none [1/2]).getD 0 (0, 0)
        = (interpP (1/2 - ([(1 : ℚ)/2] : List ℚ).getD 0 0 / 2) (ecdfU [0, 1, 2]),
           interpP (1/2 + ([(1 : ℚ)/2] : List ℚ).getD 0 0 / 2) (ecdfU [0, 1, 2]))) ∧
     ((contour1d_locs [0, 1, 2] (some [1, 1, 2]) [1/2]).getD 0 (0, 0)
        = (interpP (1/2 - ([(1 : ℚ)/2] : List ℚ).getD 0 0 / 2) (ecdfW [0, 1, 2] [1, 1, 2]),
           interpP (1/2 + ([(1 : ℚ)/2] : List ℚ).getD 0 0 / 2) (ecdfW [0, 1, 2] [1, 1, 2]))) ∧
     contour1d_median [0, 1, 2] none = interpP (1/2) (ecdfU [0, 1, 2]) ∧
     contour1d_median [0, 1, 2] (some [1, 1, 2]) = interpP (1/2) (ecdfW [0, 1, 2] [1, 1, 2]) ∧
     (∀ i, i < ([(0 : ℚ), 1, 2] : List ℚ).length →
       (ecdfU [0, 1, 2]).getD i (0, 0)
         = ((i : ℚ) / ((([(0 : ℚ), 1, 2] : List ℚ).length : ℚ) - 1),
            (sortAsc [0, 1, 2]).getD i 0))) :=
  ⟨by norm_num, by norm_num, by norm_num,
    contour1d_interval_rule [0, 1, 2] [1/2] [1, 1, 2] 0 (by norm_num) (by norm_num)
      (by norm_num)⟩

/-! ### C3: the sigma↔quantile round trip -/

theorem roundtrip_pointwise (s : ℝ) (hs : 0 < s) :
    quantiles_to_sigmas (sigmas_to_quantiles s) = s := by
  unfold quantiles_to_sigmas sigmas_to_quantiles
  rw [show (1.0 : ℝ) - (1 - Real.exp (-0.5 * s ^ 2)) = Real.exp (-0.5 * s ^ 2) by norm_num]
  rw [Real.log_exp]
  rw [show (-2.0 : ℝ) * (-0.5 * s ^ 2) = s ^ 2 by ring]
  exact Real.sqrt_sq hs.le

/-- C3: the elementwise conversions `q = 1 - exp(-sigma^2 / 2)` and
`sigma = sqrt(-2 ln(1 - q))` are mutual inverses: for every sigma array
with all entries strictly positive, mapping one conversion after the other
returns each entry to within 1e-9 (in fact exactly, in real
arithmetic). -/
theorem sigma_quantile_roundtrip (l : List ℝ) (hl : ∀ x ∈ l, 0 < x) (i : ℕ)
    (hi : i < l.length) :
    |((l.map sigmas_to_quantiles).map quantiles_to_sigmas).getD i 0 - l.getD i 0| ≤ 1e-9 := by
  rw [List.getD_eq_getElem _ _ (by simpa using hi), List.getD_eq_getElem _ _ hi]
  simp only [List.getElem_map]
  rw [roundtrip_pointwise _ (hl _ (List.getElem_mem _))]
  norm_num

/-- Witness for C3 at the sigma array `[1]`. -/
theorem sigma_quantile_roundtrip_witness :
    (∀ x ∈ [(1 : ℝ)], 0 < x) ∧ 0 < ([(1 : ℝ)] : List ℝ).length ∧
    |(([(1 : ℝ)].map sigmas_to_quantiles).map quantiles_to_sigmas).getD 0 0
        - [(1 : ℝ)].getD 0 0| ≤ 1e-9 :=
  ⟨by norm_num, by norm_num,
    sigma_quantile_roundtrip [1] (by norm_num) 0 (by norm_num)⟩

/-! ### C8: the 1D and 2D sigma-to-enclosed-mass conventions differ -/

theorem gauss_cont : Continuous fun t : ℝ => Real.exp (-t ^ 2 / 2) := by
  have h : Continuous fun t : ℝ => -t ^ 2 / 2 := by continuity
  exact Real.continuous_exp.comp h

theorem gaussG_hasDerivAt (x : ℝ) :
    HasDerivAt (fun u => ∫ t in (0:ℝ)..u, Real.exp (-t ^ 2 / 2))
      (Real.exp (-x ^ 2 / 2)) x :=
  intervalIntegral.integral_hasDerivAt_right (gauss_cont.intervalIntegrable _ _)
    (gauss_cont.stronglyMeasurableAtFilter _ _) gauss_cont.continuousAt

theorem gap_eq (u : ℝ) :
    hist1d_enclosed_mass u - sigmas_to_quantiles u
      = 2 * (Real.sqrt (2 * Real.pi))⁻¹ * (∫ t in (0:ℝ)..u, Real.exp (-t ^ 2 / 2))
        - 1 + Real.exp (-u ^ 2 / 2) := by
  unfold hist1d_enclosed_mass normCdf sigmas_to_quantiles
  rw [show (-0.5 : ℝ) * u ^ 2 = -u ^ 2 / 2 by ring]
  ring

theorem gap_hasDerivAt (x : ℝ) :
    HasDerivAt (fun u => hist1d_enclosed_mass u - sigmas_to_quantiles u)
      ((2 * (Real.sqrt (2 * Real.pi))⁻¹ - x) * Real.exp (-x ^ 2 / 2)) x := by
  have h1 := (gaussG_hasDerivAt x).const_mul (2 * (Real.sqrt (2 * Real.pi))⁻¹)
  have h2 : HasDerivAt (fun u : ℝ => -u ^ 2 / 2) (-x) x := by
    have h := (hasDerivAt_pow 2 x).neg.div_const 2
    convert h using 1
    push_cast
    ring
  have h3 : HasDerivAt (fun u : ℝ => Real.exp (-u ^ 2 / 2))
      (Real.exp (-x ^ 2 / 2) * (-x)) x := h2.exp
  have h4 := (h1.sub_const 1).add h3
  have hfe : (fun u => 2 * (Real.sqrt (2 * Real.pi))⁻¹
        * (∫ t in (0:ℝ)..u, Real.exp (-t ^ 2 / 2)) - 1 + Real.exp (-u ^ 2 / 2))
      = fun u => hist1d_enclosed_mass u - sigmas_to_quantiles u := by
    funext u
    rw [gap_eq u]
  rw [hfe] at h4
  convert h4 using 1
  ring

theorem gap_zero : hist1d_enclosed_mass 0 - sigmas_to_quantiles 0 = 0 := by
  rw [gap_eq]
  norm_num

theorem gauss_integrableOn :
    MeasureTheory.IntegrableOn (fun t : ℝ => Real.exp (-t ^ 2 / 2)) (Set.Ioi 0) := by
  have h := integrable_exp_neg_mul_sq (show (0:ℝ) < 1/2 by norm_num)
  have he : (fun t : ℝ => Real.exp (-t ^ 2 / 2)) = fun t : ℝ => Real.exp (-(1/2) * t ^ 2) := by
    funext t
    congr 1
    ring
  rw [he]
  exact h.integrableOn

theorem gaussG_tendsto :
    Filter.Tendsto (fun u : ℝ => ∫ t in (0:ℝ)..u, Real.exp (-t ^ 2 / 2))
      Filter.atTop (nhds (Real.sqrt (2 * Real.pi) / 2)) := by
  have h := MeasureTheory.intervalIntegral_tendsto_integral_Ioi 0 gauss_integrableOn
    Filter.tendsto_id
  have hv : (∫ t in Set.Ioi (0:ℝ), Real.exp (-t ^ 2 / 2)) = Real.sqrt (2 * Real.pi) / 2 := by
    have he : (fun t : ℝ => Real.exp (-t ^ 2 / 2)) = fun t : ℝ => Real.exp (-(1/2) * t ^ 2) := by
      funext t
      congr 1
      ring
    rw [he, integral_gaussian_Ioi]
    congr 2
    rw [show Real.pi / (1/2) = 2 * Real.pi by ring]
  rw [hv] at h
  exact h

theorem exp_sq_tendsto_zero :
    Filter.Tendsto (fun u : ℝ => Real.exp (-u ^ 2 / 2)) Filter.atTop (nhds 0) := by
  have h1 : Filter.Tendsto (fun u : ℝ => u ^ 2) Filter.atTop Filter.atTop :=
    Filter.tendsto_pow_atTop (by norm_num)
  have h2 := h1.atTop_mul_const_of_neg (show -(1:ℝ)/2 < 0 by norm_num)
  have h3 := Real.tendsto_exp_atBot.comp h2
  refine h3.congr fun u => ?_
  simp only [Function.comp_apply]
  congr 1
  ring

theorem gap_tendsto :
    Filter.Tendsto (fun u : ℝ => hist1d_enclosed_mass u - sigmas_to_quantiles u)
      Filter.atTop (nhds 0) := by
  have hsq : (0:ℝ) < Real.sqrt (2 * Real.pi) := Real.sqrt_pos.mpr (by positivity)
  have h1 := ((gaussG_tendsto.const_mul (2 * (Real.sqrt (2 * Real.pi))⁻¹)).sub_const 1).add
    exp_sq_tendsto_zero
  have hval : 2 * (Real.sqrt (2 * Real.pi))⁻¹ * (Real.sqrt (2 * Real.pi) / 2) - 1 + 0
      = 0 := by
    field_simp
  rw [hval] at h1
  exact h1.congr fun u => (gap_eq u).symm

theorem gap_pos (s : ℝ) (hs : 0 < s) :
    0 < hist1d_enclosed_mass s - sigmas_to_quantiles s := by
  have hsq : (0:ℝ) < Real.sqrt (2 * Real.pi) := Real.sqrt_pos.mpr (by positivity)
  set c := 2 * (Real.sqrt (2 * Real.pi))⁻¹ with hc
  have hcpos : 0 < c := by
    rw [hc]
    positivity
  set F := fun u : ℝ => hist1d_enclosed_mass u - sigmas_to_quantiles u with hF
  have hderiv : ∀ x, HasDerivAt F ((c - x) * Real.exp (-x ^ 2 / 2)) x := gap_hasDerivAt
  have hdiff : Differentiable ℝ F := fun x => (hderiv x).differentiableAt
  have hderiv_eq : ∀ x, deriv F x = (c - x) * Real.exp (-x ^ 2 / 2) :=
    fun x => (hderiv x).deriv
  have hmono : StrictMonoOn F (Set.Icc 0 c) := by
    apply strictMonoOn_of_deriv_pos (convex_Icc 0 c) hdiff.continuous.continuousOn
    intro x hx
    rw [interior_Icc] at hx
    rw [hderiv_eq]
    have hcx : 0 < c - x := by linarith [hx.2]
    positivity
  have hanti : StrictAntiOn F (Set.Ici c) := by
    apply strictAntiOn_of_deriv_neg (convex_Ici c) hdiff.continuous.continuousOn
    intro x hx
    rw [interior_Ici] at hx
    rw [hderiv_eq]
    have hneg : c - x < 0 := by
      have : c < x := hx
      linarith
    have hexp : 0 < Real.exp (-x ^ 2 / 2) := Real.exp_pos _
    nlinarith
  have hF0 : F 0 = 0 := gap_zero
  have hlow : ∀ x, c ≤ x → 0 ≤ F x := by
    intro x hx
    have hev : ∀ᶠ y in Filter.atTop, F y ≤ F x := by
      filter_upwards [Filter.eventually_ge_atTop x] with y hy
      rcases eq_or_lt_of_le hy with rfl | hlt
      · exact le_refl _
      · exact le_of_lt
          (hanti (Set.mem_Ici.mpr hx) (Set.mem_Ici.mpr (hx.trans hy)) hlt)
    exact le_of_tendsto gap_tendsto hev
  rcases le_or_lt s c with hsc | hsc
  · have hlt := hmono (Set.mem_Icc.mpr ⟨le_refl 0, hcpos.le⟩)
      (Set.mem_Icc.mpr ⟨hs.le, hsc⟩) hs
    rw [hF0] at hlt
    exact hlt
  · have h1 : F (s + 1) < F s :=
      hanti (Set.mem_Ici.mpr hsc.le) (Set.mem_Ici.mpr (by linarith)) (by linarith)
    have h2 : 0 ≤ F (s + 1) := hlow (s + 1) (by linarith)
    have hFs : F s = hist1d_enclosed_mass s - sigmas_to_quantiles s := rfl
    linarith

/-- C8: for every `sigma > 0`, the central enclosed mass `2Φ(σ) - 1`
assigned by the 1D marginal path (`scipy.stats.norm.cdf` percentile pairs
in `_draw_hist1d`) differs from the mass `1 - exp(-σ²/2)` assigned by the
2D level-solving path (`_default_quantiles` / `_dfm_levels`) — in fact the
1D value is strictly larger for every positive sigma. -/
theorem conventions_differ (s : ℝ) (hs : 0 < s) :
    hist1d_enclosed_mass s ≠ sigmas_to_quantiles s := by
  have h := gap_pos s hs
  intro heq
  rw [heq] at h
  simp at h

/-- Witness for C8 at sigma = 1. -/
theorem conventions_differ_witness :
    (0 : ℝ) < 1 ∧ hist1d_enclosed_mass 1 ≠ sigmas_to_quantiles 1 :=
  ⟨by norm_num, conventions_differ 1 (by norm_num)⟩

end Kalepy
